import Mathlib

/-!
Verification development for the `DataExtractor` pattern-extraction engine
(`src/extractor.py`).

The Python code compiles eight regular expressions and exposes
`extract_all(text)`, which returns a dict mapping eight fixed category names
to lists of matched substrings; six categories are post-processed by
`_unique_sorted` (first-occurrence dedup, then sort by `(len(s), s)`).

We embed the engine shallowly:

* `RE` is an abstract syntax of the regex features the eight patterns use
  (character classes, concatenation, alternation, greedy `?`/`*`,
  negative lookahead, single-character negative lookbehind, word boundary).
* `ends s fuel re i` returns the candidate end positions of a match of `re`
  starting at position `i` of `s`, in exactly the preference order of
  Python's backtracking engine (greedy quantifiers longest-first,
  alternation left-first); the head of the list is the match Python finds.
  `fuel` bounds the number of iterations a `star` may take; the driver
  passes `s.length + 1`, which is enough because every starred subpattern
  of the eight patterns consumes at least one character per iteration.
* `scan` replays `re.findall`: try each start position left to right, take
  the first (backtracking-preferred) match, continue after its end —
  non-overlapping, first-to-last order.
* Character classes are modelled over their ASCII meaning (`\d` = `0-9`,
  `\w` = `[A-Za-z0-9_]`, `\s` = `[ \t\n\r\v\f]`), matching the Python
  behaviour on all ASCII text.
-/

/-- ASCII whitespace, the characters Python's `\s` matches on ASCII text. -/
def isAsciiSpace (c : Char) : Bool :=
  c == ' ' || c == '\t' || c == '\n' || c == '\r' || c == '\x0b' || c == '\x0c'

/-- Word characters for `\b` and `\w`-like classes: `[A-Za-z0-9_]`. -/
def isWordChar (c : Char) : Bool :=
  c.isAlphanum || c == '_'

/-- Is the character at index `i` of `s` a word character (out of range: no)? -/
def isWordAt (s : List Char) (i : Nat) : Bool :=
  if h : i < s.length then isWordChar (s.get ⟨i, h⟩) else false

/-- Python's `\b`: position `i` is a word boundary in `s`. -/
def isWordBoundary (s : List Char) (i : Nat) : Bool :=
  match i with
  | 0 => isWordAt s 0
  | j + 1 => isWordAt s j != isWordAt s (j + 1)

/-- Regex abstract syntax covering the features used by the eight patterns of
`DataExtractor.patterns`. -/
inductive RE where
  | eps : RE
  | cls (p : Char → Bool) : RE
  | cat (a b : RE) : RE
  | alt (a b : RE) : RE
  | opt (a : RE) : RE
  | star (a : RE) : RE
  | nla (a : RE) : RE
  | nlb (p : Char → Bool) : RE
  | wb : RE

/-- A single literal character. -/
def RE.ch (c : Char) : RE := .cls (fun d => d == c)

/-- A case-insensitive literal letter (the `re.IGNORECASE` flag of the two
time patterns). -/
def RE.chI (c : Char) : RE := .cls (fun d => d == c.toLower || d == c.toUpper)

/-- A literal string. -/
def RE.lit (cs : List Char) : RE := cs.foldr (fun c r => .cat (.ch c) r) .eps

/-- `{n}`: exactly `n` copies. -/
def RE.rep : Nat → RE → RE
  | 0, _ => .eps
  | n + 1, a => .cat a (RE.rep n a)

/-- `+`: one or more copies, greedy. -/
def RE.plus (a : RE) : RE := .cat a (.star a)

/-- `[lo-hi]` character range. -/
def RE.rng (lo hi : Char) : RE := .cls (fun c => lo ≤ c && c ≤ hi)

/-- Greedy iteration of a step function (the `star` loop of `ends`): at most
`fuel` iterations, each required to consume at least one character, preferring
more iterations — Python's greedy `*`. -/
def starIter (step : Nat → List Nat) : Nat → Nat → List Nat
  | 0, i => [i]
  | f + 1, i =>
      ((step i).flatMap (fun j => if i < j then starIter step f j else [])) ++ [i]

/-- All candidate end positions of a match of `re` at position `i` of `s`, in
Python's backtracking preference order (first element = the match Python
returns). Zero-width constructs (`nla`, `nlb`, `wb`) yield `[i]` when the
assertion holds. -/
def ends (s : List Char) (fuel : Nat) : RE → Nat → List Nat
  | .eps, i => [i]
  | .cls p, i =>
      if h : i < s.length then
        (if p (s.get ⟨i, h⟩) then [i + 1] else [])
      else []
  | .cat a b, i => (ends s fuel a i).flatMap (ends s fuel b)
  | .alt a b, i => ends s fuel a i ++ ends s fuel b i
  | .opt a, i => ends s fuel a i ++ [i]
  | .star a, i => starIter (ends s fuel a) fuel i
  | .nla a, i => if (ends s fuel a i).isEmpty then [i] else []
  | .nlb p, i =>
      match i with
      | 0 => [0]
      | j + 1 =>
          if h : j < s.length then
            (if p (s.get ⟨j, h⟩) then [] else [j + 1])
          else [j + 1]
  | .wb, i => if isWordBoundary s i then [i] else []

/-- Fuel that bounds every greedy loop over `s`: each iteration of a starred
subpattern consumes at least one character. -/
def bigFuel (s : List Char) : Nat := s.length + 1

/-- The scan loop of `re.findall`: at each position take the engine's first
match, emit its span, continue after it (or one step forward on failure). -/
def scan (s : List Char) (re : RE) : Nat → Nat → List (Nat × Nat)
  | 0, _ => []
  | f + 1, i =>
      if i ≤ s.length then
        match (ends s (bigFuel s) re i).head? with
        | some e => (i, e) :: scan s re f (max e (i + 1))
        | none => scan s re f (i + 1)
      else []

/-- The spans (start, end) of the non-overlapping left-to-right matches that
`re.findall` produces. -/
def matchSpans (re : RE) (s : List Char) : List (Nat × Nat) :=
  scan s re (s.length + 1) 0

/-- The sublist of `s` from index `a` (inclusive) to `b` (exclusive). -/
def sliceL (s : List Char) (a b : Nat) : List Char :=
  (s.drop a).take (b - a)

/-- `pattern.findall(text)`: the matched substrings, in first-to-last order,
duplicates retained. -/
def findall (re : RE) (s : List Char) : List String :=
  (matchSpans re s).map (fun p => String.mk (sliceL s p.1 p.2))

/-- First-occurrence-preserving dedup with an accumulator of already-seen
strings: the engine's `dict.fromkeys(items)`. -/
def dedupFirstAux (seen : List String) : List String → List String
  | [] => []
  | a :: l =>
      if a ∈ seen then dedupFirstAux seen l
      else a :: dedupFirstAux (a :: seen) l

/-- `list(dict.fromkeys(items))`: remove duplicates, keeping the first
occurrence of each string. -/
def dedupFirst (l : List String) : List String := dedupFirstAux [] l

/-- The sort key order of `_unique_sorted`: Python's
`key=lambda s: (len(s), s)` — ascending by length, then by code-point
lexicographic order. -/
def lenLexLe (a b : String) : Prop :=
  a.length < b.length ∨ (a.length = b.length ∧ a ≤ b)

instance : DecidableRel lenLexLe := fun a b => by
  unfold lenLexLe; infer_instance

instance : IsTotal String lenLexLe where
  total a b := by
    rcases Nat.lt_trichotomy a.length b.length with h | h | h
    · exact Or.inl (Or.inl h)
    · rcases le_total a b with h2 | h2
      · exact Or.inl (Or.inr ⟨h, h2⟩)
      · exact Or.inr (Or.inr ⟨h.symm, h2⟩)
    · exact Or.inr (Or.inl h)

instance : IsTrans String lenLexLe where
  trans a b c hab hbc := by
    rcases hab with h1 | ⟨h1, h1l⟩ <;> rcases hbc with h2 | ⟨h2, h2l⟩
    · exact Or.inl (h1.trans h2)
    · exact Or.inl (h2 ▸ h1)
    · exact Or.inl (h1 ▸ h2)
    · exact Or.inr ⟨h1.trans h2, h1l.trans h2l⟩

/-- `DataExtractor._unique_sorted`:
`sorted(list(dict.fromkeys(items)), key=lambda s: (len(s), s))`. -/
def _unique_sorted (items : List String) : List String :=
  List.insertionSort lenLexLe (dedupFirst items)

/-! ### The eight compiled patterns of `DataExtractor.patterns` -/

/-- `\d` (ASCII). -/
def digitRE : RE := .cls Char.isDigit

/-- The local-part class `[a-zA-Z0-9._%+-]` of the email pattern. -/
def emailLocalChar (c : Char) : Bool :=
  c.isAlphanum || c == '.' || c == '_' || c == '%' || c == '+' || c == '-'

/-- The domain class `[a-zA-Z0-9.-]` of the email pattern. -/
def emailDomainChar (c : Char) : Bool :=
  c.isAlphanum || c == '.' || c == '-'

/-- `'email': \b[a-zA-Z0-9._%+-]+@[a-zA-Z0-9.-]+\.[A-Za-z]{2,}\b` -/
def emailRE : RE :=
  .cat .wb (.cat (.plus (.cls emailLocalChar)) (.cat (.ch '@')
    (.cat (.plus (.cls emailDomainChar)) (.cat (.ch '.')
    (.cat (.cls Char.isAlpha) (.cat (.cls Char.isAlpha)
    (.cat (.star (.cls Char.isAlpha)) .wb)))))))

/-- The URL body class `[^\s\)\]\}\,>"\']`. -/
def urlChar (c : Char) : Bool :=
  !(isAsciiSpace c || c == ')' || c == ']' || c == '}' || c == ',' ||
    c == '>' || c == '"' || c == '\'')

/-- `'url': https?://[^\s\)\]\}\,>"\']+` -/
def urlRE : RE :=
  .cat (.lit ['h', 't', 't', 'p']) (.cat (.opt (.ch 's'))
    (.cat (.lit [':', '/', '/']) (.plus (.cls urlChar))))

/-- The phone separator class `[-.\s]`. -/
def phoneSepChar (c : Char) : Bool :=
  c == '-' || c == '.' || isAsciiSpace c

/-- The first phone alternative `\(?\d{3}\)?[-.\s]?\d{3}[-.\s]?\d{4}`. -/
def phone334RE : RE :=
  .cat (.opt (.ch '(')) (.cat (.rep 3 digitRE) (.cat (.opt (.ch ')'))
    (.cat (.opt (.cls phoneSepChar)) (.cat (.rep 3 digitRE)
    (.cat (.opt (.cls phoneSepChar)) (.rep 4 digitRE))))))

/-- The second phone alternative `\b\d{10}\b`. -/
def phoneBareRE : RE := .cat .wb (.cat (.rep 10 digitRE) .wb)

/-- `'phone': (?:\(?\d{3}\)?[-.\s]?\d{3}[-.\s]?\d{4}|\b\d{10}\b)` -/
def phoneRE : RE := .alt phone334RE phoneBareRE

/-- The credit-card separator class `[-\s]`. -/
def cardSepChar (c : Char) : Bool := c == '-' || isAsciiSpace c

/-- `'credit_card': \b(?:\d{4}[-\s]?){3}\d{4}\b` -/
def creditCardRE : RE :=
  .cat .wb (.cat (.rep 3 (.cat (.rep 4 digitRE) (.opt (.cls cardSepChar))))
    (.cat (.rep 4 digitRE) .wb))

/-- `(?:AM|PM)` under `re.IGNORECASE`. -/
def amOrPmRE : RE :=
  .alt (.cat (.chI 'A') (.chI 'M')) (.cat (.chI 'P') (.chI 'M'))

/-- `'time_24h': \b(?:[01][0-9]|2[0-3]):[0-5][0-9](?!\s?(?:AM|PM))\b`
(with `re.IGNORECASE`). -/
def time24hRE : RE :=
  .cat .wb (.cat (.alt (.cat (.rng '0' '1') (.rng '0' '9'))
                       (.cat (.ch '2') (.rng '0' '3')))
    (.cat (.ch ':') (.cat (.rng '0' '5') (.cat (.rng '0' '9')
    (.cat (.nla (.cat (.opt (.cls isAsciiSpace)) amOrPmRE)) .wb)))))

/-- `'time_12h': \b(?:0?[1-9]|1[0-2]):[0-5][0-9]\s?(?:AM|PM)\b`
(with `re.IGNORECASE`). -/
def time12hRE : RE :=
  .cat .wb (.cat (.alt (.cat (.opt (.ch '0')) (.rng '1' '9'))
                       (.cat (.ch '1') (.rng '0' '2')))
    (.cat (.ch ':') (.cat (.rng '0' '5') (.cat (.rng '0' '9')
    (.cat (.opt (.cls isAsciiSpace)) (.cat amOrPmRE .wb))))))

/-- `'hashtag': (?<!#)#[A-Za-z0-9_]+\b` -/
def hashtagRE : RE :=
  .cat (.nlb (fun c => c == '#')) (.cat (.ch '#')
    (.cat (.plus (.cls isWordChar)) .wb))

/-- `\d{1,3}`, greedy (tries 3 digits, then 2, then 1). -/
def digits13RE : RE := .cat digitRE (.opt (.cat digitRE (.opt digitRE)))

/-- `'currency': \$(?:\d{1,3}(?:,\d{3})+|\d+(?!,))(?:\.\d{2})?(?![\d,])` -/
def currencyRE : RE :=
  .cat (.ch '$') (.cat
    (.alt (.cat digits13RE (.plus (.cat (.ch ',') (.rep 3 digitRE))))
          (.cat (.plus digitRE) (.nla (.ch ','))))
    (.cat (.opt (.cat (.ch '.') (.rep 2 digitRE)))
          (.nla (.cls (fun c => c.isDigit || c == ',')))))

/-- `DataExtractor.extract_all(text)`: the dict literal of the source,
modelled as an association list in the source's key order; `email` and `url`
are raw `findall` results, the other six pass through `_unique_sorted`. -/
def extract_all (text : String) : List (String × List String) :=
  [("emails", findall emailRE text.data),
   ("urls", findall urlRE text.data),
   ("phone_numbers", _unique_sorted (findall phoneRE text.data)),
   ("credit_cards", _unique_sorted (findall creditCardRE text.data)),
   ("time_12h", _unique_sorted (findall time12hRE text.data)),
   ("time_24h", _unique_sorted (findall time24hRE text.data)),
   ("hashtags", _unique_sorted (findall hashtagRE text.data)),
   ("currency", _unique_sorted (findall currencyRE text.data))]

/-- The eight category names, in the source's dict order. -/
def categoryNames : List String :=
  ["emails", "urls", "phone_numbers", "credit_cards",
   "time_12h", "time_24h", "hashtags", "currency"]

/-! ### Claim-level token shapes for the two time categories -/

/-- `A`, `a`, `P` or `p`. -/
def isApChar (c : Char) : Bool := c == 'A' || c == 'a' || c == 'P' || c == 'p'

/-- `M` or `m`. -/
def isMChar (c : Char) : Bool := c == 'M' || c == 'm'

/-- A token of the form `HH:MM` followed, optionally after one whitespace
character, by `AM` or `PM` (case-insensitive) — the shape the claim says can
never be an element of `time_24h`. -/
def isAmPmFormL : List Char → Bool
  | [h1, h2, c, m1, m2, a, b] =>
      h1.isDigit && h2.isDigit && (c == ':') && m1.isDigit && m2.isDigit &&
        isApChar a && isMChar b
  | [h1, h2, c, m1, m2, w, a, b] =>
      h1.isDigit && h2.isDigit && (c == ':') && m1.isDigit && m2.isDigit &&
        isAsciiSpace w && isApChar a && isMChar b
  | _ => false

/-- String form of `isAmPmFormL`. -/
def isAmPmForm (m : String) : Bool := isAmPmFormL m.data

/-- A strict 24-hour `HH:MM` token (hour `00`-`23` with required leading zero,
minute `00`-`59`) with no `AM`/`PM` suffix — the shape the claim says can
never be an element of `time_12h`. -/
def isBare24hL : List Char → Bool
  | [h1, h2, c, m1, m2] =>
      ((h1 == '0' || h1 == '1') && h2.isDigit ||
        (h1 == '2') && (decide ('0' ≤ h2) && decide (h2 ≤ '3'))) &&
      (c == ':') && (decide ('0' ≤ m1) && decide (m1 ≤ '5')) && m2.isDigit
  | _ => false

/-- String form of `isBare24hL`. -/
def isBare24h (m : String) : Bool := isBare24hL m.data

/-- The 3-3-4 phone shape of the claim: optional opening parenthesis, three
digits, optional closing parenthesis, optional single separator, three digits,
optional single separator, four digits. -/
def Phone334 (m : String) : Prop :=
  ∃ pl g1 q s1 g2 s2 g3 : List Char,
    m.data = pl ++ (g1 ++ (q ++ (s1 ++ (g2 ++ (s2 ++ g3))))) ∧
    (pl = [] ∨ pl = ['(']) ∧
    (q = [] ∨ q = [')']) ∧
    (s1 = [] ∨ ∃ c, s1 = [c] ∧ phoneSepChar c = true) ∧
    (s2 = [] ∨ ∃ c, s2 = [c] ∧ phoneSepChar c = true) ∧
    g1.length = 3 ∧ g1.all Char.isDigit = true ∧
    g2.length = 3 ∧ g2.all Char.isDigit = true ∧
    g3.length = 4 ∧ g3.all Char.isDigit = true

/-- The bare-run phone shape of the claim: exactly ten digits. -/
def Bare10 (m : String) : Prop :=
  m.data.length = 10 ∧ m.data.all Char.isDigit = true

/-! ### Inversion lemmas for `ends` -/

theorem mem_ends_eps {s : List Char} {f i e : Nat} :
    e ∈ ends s f .eps i ↔ e = i := by
  simp [ends]

theorem mem_ends_cls {s : List Char} {f : Nat} {p : Char → Bool} {i e : Nat} :
    e ∈ ends s f (.cls p) i ↔
      e = i + 1 ∧ ∃ h : i < s.length, p (s.get ⟨i, h⟩) = true := by
  simp only [ends]
  split
  · next h =>
    split
    · next hp =>
      simp only [List.mem_singleton]
      exact ⟨fun he => ⟨he, h, hp⟩, fun he => he.1⟩
    · next hp =>
      simp only [List.not_mem_nil, false_iff, not_and]
      rintro - ⟨h2, hp2⟩
      exact hp hp2
  · next h =>
    simp only [List.not_mem_nil, false_iff, not_and]
    rintro - ⟨h2, hp2⟩
    exact h h2

theorem mem_ends_cat {s : List Char} {f : Nat} {a b : RE} {i e : Nat} :
    e ∈ ends s f (.cat a b) i ↔ ∃ j, j ∈ ends s f a i ∧ e ∈ ends s f b j := by
  simp [ends]

theorem mem_ends_alt {s : List Char} {f : Nat} {a b : RE} {i e : Nat} :
    e ∈ ends s f (.alt a b) i ↔ e ∈ ends s f a i ∨ e ∈ ends s f b i := by
  simp [ends]

theorem mem_ends_opt {s : List Char} {f : Nat} {a : RE} {i e : Nat} :
    e ∈ ends s f (.opt a) i ↔ e ∈ ends s f a i ∨ e = i := by
  simp [ends]

theorem mem_ends_nla {s : List Char} {f : Nat} {a : RE} {i e : Nat} :
    e ∈ ends s f (.nla a) i ↔ e = i ∧ ends s f a i = [] := by
  simp only [ends]
  split
  · next h => simp [List.isEmpty_iff.mp h]
  · next h =>
    simp only [List.mem_nil_iff, false_iff, not_and]
    intro _ hnil
    exact h (by simp [hnil])

theorem mem_ends_wb {s : List Char} {f i e : Nat} :
    e ∈ ends s f .wb i ↔ e = i ∧ isWordBoundary s i = true := by
  simp only [ends]
  split
  · next h => simp [h]
  · next h => simp [h]

theorem mem_ends_nlb_self {s : List Char} {f : Nat} {p : Char → Bool} {i e : Nat}
    (h : e ∈ ends s f (.nlb p) i) : e = i := by
  match i with
  | 0 => simpa [ends] using h
  | j + 1 =>
    simp only [ends] at h
    split at h
    · split at h
      · simp at h
      · simpa using h
    · simpa using h

/-! ### Position bounds for `ends` and `scan` -/

theorem starIter_start_le (step : Nat → List Nat) :
    ∀ (f i j : Nat), j ∈ starIter step f i → i ≤ j := by
  intro f
  induction f with
  | zero => intro i j h; simp [starIter] at h; omega
  | succ f ih =>
    intro i j h
    simp only [starIter, List.mem_append, List.mem_flatMap, List.mem_singleton] at h
    rcases h with ⟨k, _, hk⟩ | rfl
    · split at hk
      · next hik => exact le_of_lt (lt_of_lt_of_le hik (ih _ _ hk))
      · simp at hk
    · exact Nat.le_refl _

theorem ends_start_le {s : List Char} {f : Nat} :
    ∀ (re : RE) (i e : Nat), e ∈ ends s f re i → i ≤ e := by
  intro re
  induction re with
  | eps => intro i e h; simp [mem_ends_eps] at h; omega
  | cls p => intro i e h; rw [mem_ends_cls] at h; omega
  | cat a b iha ihb =>
    intro i e h
    rw [mem_ends_cat] at h
    obtain ⟨j, hj, he⟩ := h
    exact le_trans (iha i j hj) (ihb j e he)
  | alt a b iha ihb =>
    intro i e h
    rw [mem_ends_alt] at h
    rcases h with h | h
    · exact iha i e h
    · exact ihb i e h
  | opt a iha =>
    intro i e h
    rw [mem_ends_opt] at h
    rcases h with h | rfl
    · exact iha i e h
    · exact Nat.le_refl _
  | star a iha =>
    intro i e h
    exact starIter_start_le _ _ _ _ h
  | nla a iha => intro i e h; rw [mem_ends_nla] at h; omega
  | nlb p => intro i e h; have := mem_ends_nlb_self h; omega
  | wb => intro i e h; rw [mem_ends_wb] at h; omega

theorem starIter_le_length {s : List Char} (step : Nat → List Nat)
    (hstep : ∀ i, i ≤ s.length → ∀ j ∈ step i, j ≤ s.length) :
    ∀ (f i : Nat), i ≤ s.length → ∀ j ∈ starIter step f i, j ≤ s.length := by
  intro f
  induction f with
  | zero => intro i hi j hj; simp [starIter] at hj; omega
  | succ f ih =>
    intro i hi j hj
    simp only [starIter, List.mem_append, List.mem_flatMap, List.mem_singleton] at hj
    rcases hj with ⟨k, hk, hjk⟩ | rfl
    · split at hjk
      · exact ih k (hstep i hi k hk) j hjk
      · simp at hjk
    · exact hi

theorem ends_le_length {s : List Char} {f : Nat} :
    ∀ (re : RE) (i : Nat), i ≤ s.length → ∀ e ∈ ends s f re i, e ≤ s.length := by
  intro re
  induction re with
  | eps => intro i hi e he; rw [mem_ends_eps] at he; omega
  | cls p =>
    intro i hi e he
    rw [mem_ends_cls] at he
    obtain ⟨rfl, hlt, -⟩ := he
    omega
  | cat a b iha ihb =>
    intro i hi e he
    rw [mem_ends_cat] at he
    obtain ⟨j, hj, he⟩ := he
    exact ihb j (iha i hi j hj) e he
  | alt a b iha ihb =>
    intro i hi e he
    rw [mem_ends_alt] at he
    rcases he with he | he
    · exact iha i hi e he
    · exact ihb i hi e he
  | opt a iha =>
    intro i hi e he
    rw [mem_ends_opt] at he
    rcases he with he | rfl
    · exact iha i hi e he
    · exact hi
  | star a iha =>
    intro i hi e he
    exact starIter_le_length _ iha f i hi e he
  | nla a iha =>
    intro i hi e he
    rw [mem_ends_nla] at he
    obtain ⟨rfl, -⟩ := he
    exact hi
  | nlb p => intro i hi e he; have := mem_ends_nlb_self he; omega
  | wb => intro i hi e he; rw [mem_ends_wb] at he; omega

/-! ### Properties of the `findall` scan -/

theorem scan_start_le {s : List Char} {re : RE} :
    ∀ (f i : Nat), ∀ p ∈ scan s re f i, i ≤ p.1 := by
  intro f
  induction f with
  | zero => intro i p hp; simp [scan] at hp
  | succ f ih =>
    intro i p hp
    rw [scan] at hp
    split at hp
    · cases hh : (ends s (bigFuel s) re i).head? with
      | some e =>
        rw [hh] at hp
        simp only [List.mem_cons] at hp
        rcases hp with rfl | hp
        · exact Nat.le_refl _
        · have := ih _ _ hp
          omega
      | none =>
        rw [hh] at hp
        have := ih _ _ hp
        omega
    · simp at hp

theorem scan_first_match {s : List Char} {re : RE} :
    ∀ (f i : Nat), ∀ p ∈ scan s re f i,
      (ends s (bigFuel s) re p.1).head? = some p.2 ∧ p.1 ≤ s.length := by
  intro f
  induction f with
  | zero => intro i p hp; simp [scan] at hp
  | succ f ih =>
    intro i p hp
    rw [scan] at hp
    split at hp
    · next hi =>
      cases hh : (ends s (bigFuel s) re i).head? with
      | some e =>
        rw [hh] at hp
        simp only [List.mem_cons] at hp
        rcases hp with rfl | hp
        · exact ⟨hh, hi⟩
        · exact ih _ _ hp
      | none =>
        rw [hh] at hp
        exact ih _ _ hp
    · simp at hp

theorem scan_chain {s : List Char} {re : RE} :
    ∀ (f i : Nat),
      List.Chain' (fun p q : Nat × Nat => p.2 ≤ q.1 ∧ p.1 < q.1) (scan s re f i) := by
  intro f
  induction f with
  | zero => intro i; simp [scan]
  | succ f ih =>
    intro i
    rw [scan]
    split
    · cases hh : (ends s (bigFuel s) re i).head? with
      | some e =>
        rw [List.chain'_cons']
        refine ⟨?_, ih _⟩
        intro q hq
        have hq2 := scan_start_le _ _ _ (List.mem_of_mem_head? hq)
        constructor
        · simp only at hq2 ⊢; omega
        · simp only at hq2 ⊢; omega
      | none => exact ih _
    · exact List.chain'_nil

/-! ### Slices -/

theorem sliceL_self (s : List Char) (a : Nat) : sliceL s a a = [] := by
  simp [sliceL]

theorem length_sliceL {s : List Char} {a b : Nat} (h1 : a ≤ b) (h2 : b ≤ s.length) :
    (sliceL s a b).length = b - a := by
  simp only [sliceL, List.length_take, List.length_drop]
  omega

theorem sliceL_split (s : List Char) {a b c : Nat} (h1 : a ≤ b) (h2 : b ≤ c) :
    sliceL s a c = sliceL s a b ++ sliceL s b c := by
  unfold sliceL
  rw [show c - a = (b - a) + (c - b) by omega, List.take_add, List.drop_drop,
      show a + (b - a) = b by omega]

theorem sliceL_one {s : List Char} {a : Nat} (h : a < s.length) :
    sliceL s a (a + 1) = [s.get ⟨a, h⟩] := by
  unfold sliceL
  rw [show a + 1 - a = 1 by omega, List.drop_eq_getElem_cons h]
  rfl

/-! ### Properties of `_unique_sorted` -/

theorem mem_dedupFirstAux :
    ∀ (l seen : List String) (x : String),
      x ∈ dedupFirstAux seen l ↔ x ∈ l ∧ x ∉ seen := by
  intro l
  induction l with
  | nil => intro seen x; simp [dedupFirstAux]
  | cons a l ih =>
    intro seen x
    simp only [dedupFirstAux]
    split
    · next ha =>
      rw [ih]
      simp only [List.mem_cons]
      constructor
      · rintro ⟨h1, h2⟩; exact ⟨Or.inr h1, h2⟩
      · rintro ⟨h1 | h1, h2⟩
        · exact absurd (h1 ▸ ha) h2
        · exact ⟨h1, h2⟩
    · next ha =>
      simp only [List.mem_cons, ih, List.mem_cons]
      constructor
      · rintro (rfl | ⟨h1, h2⟩)
        · exact ⟨Or.inl rfl, ha⟩
        · exact ⟨Or.inr h1, fun hx => h2 (Or.inr hx)⟩
      · rintro ⟨rfl | h1, h2⟩
        · exact Or.inl rfl
        · by_cases hxa : x = a
          · exact Or.inl hxa
          · refine Or.inr ⟨h1, fun hx => ?_⟩
            rcases hx with hx2 | hx2
            · exact hxa hx2
            · exact h2 hx2

theorem nodup_dedupFirstAux :
    ∀ (l seen : List String), (dedupFirstAux seen l).Nodup := by
  intro l
  induction l with
  | nil => intro seen; simp [dedupFirstAux]
  | cons a l ih =>
    intro seen
    simp only [dedupFirstAux]
    split
    · exact ih seen
    · refine List.Nodup.cons ?_ (ih (a :: seen))
      intro hmem
      rw [mem_dedupFirstAux] at hmem
      exact hmem.2 (List.mem_cons_self a seen)

theorem mem_unique_sorted {l : List String} {x : String} :
    x ∈ _unique_sorted l ↔ x ∈ l := by
  unfold _unique_sorted dedupFirst
  rw [List.mem_insertionSort, mem_dedupFirstAux]
  simp

theorem nodup_unique_sorted (l : List String) : (_unique_sorted l).Nodup :=
  ((List.perm_insertionSort lenLexLe (dedupFirst l)).nodup_iff).mpr
    (nodup_dedupFirstAux l [])

theorem sorted_unique_sorted (l : List String) :
    List.Sorted lenLexLe (_unique_sorted l) :=
  List.sorted_insertionSort lenLexLe (dedupFirst l)

/-! ### Relating `findall` members to match spans -/

theorem mem_findall {re : RE} {s : List Char} {m : String} :
    m ∈ findall re s ↔
      ∃ p ∈ matchSpans re s, m = String.mk (sliceL s p.1 p.2) := by
  simp only [findall, List.mem_map]
  constructor
  · rintro ⟨p, hp, rfl⟩; exact ⟨p, hp, rfl⟩
  · rintro ⟨p, hp, rfl⟩; exact ⟨p, hp, rfl⟩

/-! ### The entries of `extract_all` -/

theorem lookup_emails (t : String) :
    (extract_all t).lookup "emails" = some (findall emailRE t.data) := rfl

theorem lookup_urls (t : String) :
    (extract_all t).lookup "urls" = some (findall urlRE t.data) := rfl

theorem lookup_phone_numbers (t : String) :
    (extract_all t).lookup "phone_numbers" =
      some (_unique_sorted (findall phoneRE t.data)) := rfl

theorem lookup_credit_cards (t : String) :
    (extract_all t).lookup "credit_cards" =
      some (_unique_sorted (findall creditCardRE t.data)) := rfl

theorem lookup_time_12h (t : String) :
    (extract_all t).lookup "time_12h" =
      some (_unique_sorted (findall time12hRE t.data)) := rfl

theorem lookup_time_24h (t : String) :
    (extract_all t).lookup "time_24h" =
      some (_unique_sorted (findall time24hRE t.data)) := rfl

theorem lookup_hashtags (t : String) :
    (extract_all t).lookup "hashtags" =
      some (_unique_sorted (findall hashtagRE t.data)) := rfl

theorem lookup_currency (t : String) :
    (extract_all t).lookup "currency" =
      some (_unique_sorted (findall currencyRE t.data)) := rfl

/-! ### Shapes of time and phone matches -/

theorem time24h_len {s : List Char} {f i e : Nat}
    (h : e ∈ ends s f time24hRE i) : e = i + 5 := by
  simp only [time24hRE, amOrPmRE, RE.rng, RE.chI, RE.ch, mem_ends_cat, mem_ends_alt,
    mem_ends_cls, mem_ends_wb, mem_ends_nla] at h
  obtain ⟨j1, ⟨rfl, hb1⟩, j2, hj2, j3, ⟨rfl, hc⟩, j4, ⟨rfl, h4⟩, j5, ⟨rfl, h5⟩, j6, ⟨rfl, hn⟩, rfl, hb2⟩ := h
  rcases hj2 with ⟨k, ⟨rfl, hk1⟩, rfl, hk2⟩ | ⟨k, ⟨rfl, hk1⟩, rfl, hk2⟩ <;> omega


theorem time12h_len {s : List Char} {f i e : Nat}
    (h : e ∈ ends s f time12hRE i) : i + 6 ≤ e ∧ e ≤ i + 8 := by
  simp only [time12hRE, amOrPmRE, RE.rng, RE.chI, RE.ch, mem_ends_cat, mem_ends_alt,
    mem_ends_cls, mem_ends_wb, mem_ends_opt] at h
  obtain ⟨j1, ⟨rfl, hb1⟩, j2, hhour, j3, ⟨rfl, hc⟩, j4, ⟨rfl, h4⟩, j5, ⟨rfl, h5⟩, j6, hopt,
    j7, hampm, rfl, hb2⟩ := h
  rcases hhour with ⟨k, ⟨rfl, -⟩ | rfl, rfl, -⟩ | ⟨k, ⟨rfl, -⟩, rfl, -⟩ <;>
    rcases hopt with ⟨rfl, -⟩ | rfl <;>
    rcases hampm with ⟨m, ⟨rfl, -⟩, rfl, -⟩ | ⟨m, ⟨rfl, -⟩, rfl, -⟩ <;> omega

theorem mem_ends_rep_cls {s : List Char} {f : Nat} {p : Char → Bool} :
    ∀ (n i e : Nat), e ∈ ends s f (RE.rep n (.cls p)) i ↔
      (e = i + n ∧ ∀ k, k < n → ∃ h : i + k < s.length, p (s.get ⟨i + k, h⟩) = true) := by
  intro n
  induction n with
  | zero =>
    intro i e
    simp [RE.rep, mem_ends_eps]
  | succ n ih =>
    intro i e
    rw [show RE.rep (n + 1) (.cls p) = .cat (.cls p) (RE.rep n (.cls p)) from rfl]
    rw [mem_ends_cat]
    constructor
    · rintro ⟨j, hj, he⟩
      rw [mem_ends_cls] at hj
      obtain ⟨rfl, hlt, hp⟩ := hj
      rw [ih] at he
      obtain ⟨rfl, hall⟩ := he
      refine ⟨by omega, ?_⟩
      intro k hk
      match k with
      | 0 => exact ⟨hlt, hp⟩
      | k + 1 =>
        have heq : i + (k + 1) = i + 1 + k := by omega
        rw [heq]
        exact hall k (by omega)
    · rintro ⟨rfl, hall⟩
      obtain ⟨h0, hp0⟩ := hall 0 (by omega)
      refine ⟨i + 1, ?_, ?_⟩
      · rw [mem_ends_cls]
        exact ⟨rfl, by simpa using h0, by simpa using hp0⟩
      · rw [ih]
        refine ⟨by omega, ?_⟩
        intro k hk
        have heq : i + 1 + k = i + (k + 1) := by omega
        rw [heq]
        exact hall (k + 1) (by omega)

theorem sliceL_all {s : List Char} {p : Char → Bool} {a b : Nat}
    (h : ∀ k, k < b - a → ∀ hh : a + k < s.length, p (s.get ⟨a + k, hh⟩) = true) :
    (sliceL s a b).all p = true := by
  rw [List.all_eq_true]
  intro x hx
  rw [List.mem_iff_getElem] at hx
  obtain ⟨k, hk, rfl⟩ := hx
  simp only [sliceL, List.length_take, List.length_drop] at hk
  simp only [sliceL, List.getElem_take, List.getElem_drop]
  have hh : a + k < s.length := by omega
  have := h k (by omega) hh
  simpa [List.get_eq_getElem] using this


theorem phone_match_shape {s : List Char} {f i e : Nat}
    (h : e ∈ ends s f phoneRE i) :
    Phone334 (String.mk (sliceL s i e)) ∨ Bare10 (String.mk (sliceL s i e)) := by
  simp only [phoneRE, phone334RE, phoneBareRE, digitRE, RE.ch, mem_ends_alt, mem_ends_cat,
    mem_ends_opt, mem_ends_cls, mem_ends_wb, mem_ends_rep_cls] at h
  rcases h with h | h
  · -- first alternative, the separator-less 3-3-4 style
    obtain ⟨j0, hlp, j1, ⟨rfl, hg1⟩, j2, hrp, j3, hs1, j4, ⟨rfl, hg2⟩, j5, hs2, rfl, hg3⟩ := h
    left
    have hj0 : i ≤ j0 ∧ j0 ≤ i + 1 := by
      rcases hlp with ⟨heq, -⟩ | heq <;> omega
    have hj2 : j0 + 3 ≤ j2 ∧ j2 ≤ j0 + 4 := by
      rcases hrp with ⟨heq, -⟩ | heq <;> omega
    have hj3 : j2 ≤ j3 ∧ j3 ≤ j2 + 1 := by
      rcases hs1 with ⟨heq, -⟩ | heq <;> omega
    have hj5 : j3 + 3 ≤ j5 ∧ j5 ≤ j3 + 4 := by
      rcases hs2 with ⟨heq, -⟩ | heq <;> omega
    obtain ⟨hj0a, hj0b⟩ := hj0
    obtain ⟨hj2a, hj2b⟩ := hj2
    obtain ⟨hj3a, hj3b⟩ := hj3
    obtain ⟨hj5a, hj5b⟩ := hj5
    have hle : j5 + 4 ≤ s.length := by
      obtain ⟨hh, -⟩ := hg3 3 (by omega); omega
    refine ⟨sliceL s i j0, sliceL s j0 (j0 + 3), sliceL s (j0 + 3) j2, sliceL s j2 j3,
      sliceL s j3 (j3 + 3), sliceL s (j3 + 3) j5, sliceL s j5 (j5 + 4),
      ?_, ?_, ?_, ?_, ?_, ?_, ?_, ?_, ?_, ?_, ?_⟩
    · show sliceL s i (j5 + 4) = _
      rw [← sliceL_split s (by omega) (by omega), ← sliceL_split s (by omega) (by omega),
        ← sliceL_split s (by omega) (by omega), ← sliceL_split s (by omega) (by omega),
        ← sliceL_split s (by omega) (by omega), ← sliceL_split s (by omega) (by omega)]
    · rcases hlp with ⟨heq, hlt, hpc⟩ | heq
      · subst heq
        exact Or.inr (by rw [sliceL_one hlt, eq_of_beq hpc])
      · exact Or.inl (by rw [heq, sliceL_self])
    · rcases hrp with ⟨heq, hlt, hpc⟩ | heq
      · subst heq
        exact Or.inr (by rw [sliceL_one hlt, eq_of_beq hpc])
      · exact Or.inl (by rw [heq, sliceL_self])
    · rcases hs1 with ⟨heq, hlt, hpc⟩ | heq
      · subst heq
        exact Or.inr ⟨s.get ⟨j2, hlt⟩, by rw [sliceL_one hlt], hpc⟩
      · exact Or.inl (by rw [heq, sliceL_self])
    · rcases hs2 with ⟨heq, hlt, hpc⟩ | heq
      · subst heq
        exact Or.inr ⟨s.get ⟨j3 + 3, hlt⟩, by rw [sliceL_one hlt], hpc⟩
      · exact Or.inl (by rw [heq, sliceL_self])
    · rw [@length_sliceL s j0 (j0 + 3) (by omega) (by omega)]
      omega
    · refine sliceL_all ?_
      intro k hk hh
      obtain ⟨h2, hp⟩ := hg1 k (by omega)
      exact hp
    · rw [@length_sliceL s j3 (j3 + 3) (by omega) (by omega)]
      omega
    · refine sliceL_all ?_
      intro k hk hh
      obtain ⟨h2, hp⟩ := hg2 k (by omega)
      exact hp
    · rw [@length_sliceL s j5 (j5 + 4) (by omega) (by omega)]
      omega
    · refine sliceL_all ?_
      intro k hk hh
      obtain ⟨h2, hp⟩ := hg3 k (by omega)
      exact hp
  · -- second alternative, the word-boundary ten-digit run
    obtain ⟨j, ⟨hji, hb1⟩, j1, ⟨rfl, hdig⟩, rfl, hb2⟩ := h
    subst hji
    right
    have hle : j + 10 ≤ s.length := by
      obtain ⟨hh, -⟩ := hdig 9 (by omega); omega
    constructor
    · show (sliceL s j (j + 10)).length = 10
      rw [@length_sliceL s j (j + 10) (by omega) (by omega)]
      omega
    · show (sliceL s j (j + 10)).all Char.isDigit = true
      refine sliceL_all ?_
      intro k hk hh
      obtain ⟨h2, hp⟩ := hdig k (by omega)
      exact hp

theorem isAmPmFormL_eq_false {l : List Char} (h : l.length < 7) :
    isAmPmFormL l = false := by
  rcases l with - | ⟨a, - | ⟨b, - | ⟨c, - | ⟨d, - | ⟨e2, - | ⟨f2, - | ⟨g, rest⟩⟩⟩⟩⟩⟩⟩
  · rfl
  · rfl
  · rfl
  · rfl
  · rfl
  · rfl
  · rfl
  · simp only [List.length_cons, List.length_nil] at h; omega

theorem isBare24hL_eq_false {l : List Char} (h : l.length ≠ 5) :
    isBare24hL l = false := by
  rcases l with - | ⟨a, - | ⟨b, - | ⟨c, - | ⟨d, - | ⟨e2, - | ⟨f2, rest⟩⟩⟩⟩⟩⟩
  · rfl
  · rfl
  · rfl
  · rfl
  · rfl
  · simp only [List.length_cons, List.length_nil] at h; omega
  · rfl

/-- Bundled specification of `_unique_sorted`: sorted by length-then-lex,
duplicate-free, and containing exactly the input's strings. -/
theorem unique_sorted_spec (l : List String) :
    List.Sorted lenLexLe (_unique_sorted l) ∧ (_unique_sorted l).Nodup ∧
      ∀ m, m ∈ _unique_sorted l ↔ m ∈ l :=
  ⟨sorted_unique_sorted l, nodup_unique_sorted l, fun _ => mem_unique_sorted⟩

/-- C1: for every input text, `extract_all` returns a mapping whose key list
is exactly the eight fixed category names, every key is present (lookup
succeeds) even when its sequence is empty, and on the empty string every key
maps to the empty sequence. -/
theorem extract_all_fixed_keys (t : String) :
    (extract_all t).map Prod.fst = categoryNames ∧
    (∀ n ∈ categoryNames, ((extract_all t).lookup n).isSome = true) ∧
    (∀ n ∈ categoryNames, (extract_all "").lookup n = some []) := by
  refine ⟨rfl, ?_, ?_⟩
  · intro n hn
    simp only [categoryNames, List.mem_cons, List.not_mem_nil, or_false] at hn
    rcases hn with rfl | rfl | rfl | rfl | rfl | rfl | rfl | rfl <;> rfl
  · intro n hn
    simp only [categoryNames, List.mem_cons, List.not_mem_nil, or_false] at hn
    rcases hn with rfl | rfl | rfl | rfl | rfl | rfl | rfl | rfl <;> decide

/-- Witness for C1 at the concrete input `"x"`. -/
theorem extract_all_fixed_keys_witness :
    ((extract_all "x").lookup "emails").isSome = true ∧
    (extract_all "").lookup "hashtags" = some [] :=
  ⟨(extract_all_fixed_keys "x").2.1 "emails" (by decide),
   (extract_all_fixed_keys "x").2.2 "hashtags" (by decide)⟩

/-- C2: for every input text, each of the six `DEDUP_SORTED` categories is
sorted ascending by length then lexicographic order, contains no duplicate
strings, and its elements are exactly the raw matches of that category's
pattern. -/
theorem dedup_sorted_categories (t : String) :
    (List.Sorted lenLexLe (((extract_all t).lookup "phone_numbers").getD []) ∧
      (((extract_all t).lookup "phone_numbers").getD []).Nodup ∧
      ∀ m, m ∈ ((extract_all t).lookup "phone_numbers").getD [] ↔
        m ∈ findall phoneRE t.data) ∧
    (List.Sorted lenLexLe (((extract_all t).lookup "credit_cards").getD []) ∧
      (((extract_all t).lookup "credit_cards").getD []).Nodup ∧
      ∀ m, m ∈ ((extract_all t).lookup "credit_cards").getD [] ↔
        m ∈ findall creditCardRE t.data) ∧
    (List.Sorted lenLexLe (((extract_all t).lookup "time_12h").getD []) ∧
      (((extract_all t).lookup "time_12h").getD []).Nodup ∧
      ∀ m, m ∈ ((extract_all t).lookup "time_12h").getD [] ↔
        m ∈ findall time12hRE t.data) ∧
    (List.Sorted lenLexLe (((extract_all t).lookup "time_24h").getD []) ∧
      (((extract_all t).lookup "time_24h").getD []).Nodup ∧
      ∀ m, m ∈ ((extract_all t).lookup "time_24h").getD [] ↔
        m ∈ findall time24hRE t.data) ∧
    (List.Sorted lenLexLe (((extract_all t).lookup "hashtags").getD []) ∧
      (((extract_all t).lookup "hashtags").getD []).Nodup ∧
      ∀ m, m ∈ ((extract_all t).lookup "hashtags").getD [] ↔
        m ∈ findall hashtagRE t.data) ∧
    (List.Sorted lenLexLe (((extract_all t).lookup "currency").getD []) ∧
      (((extract_all t).lookup "currency").getD []).Nodup ∧
      ∀ m, m ∈ ((extract_all t).lookup "currency").getD [] ↔
        m ∈ findall currencyRE t.data) := by
  simp only [lookup_phone_numbers, lookup_credit_cards, lookup_time_12h,
    lookup_time_24h, lookup_hashtags, lookup_currency, Option.getD_some]
  exact ⟨unique_sorted_spec _, unique_sorted_spec _, unique_sorted_spec _,
    unique_sorted_spec _, unique_sorted_spec _, unique_sorted_spec _⟩

/-- C3: for every input text, `emails` and `urls` are the raw left-to-right
non-overlapping matches of their patterns exactly as found: the sequences are
the substrings of the spans produced by the scan, the spans are strictly
ordered and non-overlapping (so order of appearance and duplicates are
preserved), and each span is the engine's first match at its start
position. -/
theorem raw_ordered_categories (t : String) :
    (((extract_all t).lookup "emails").getD [] =
        (matchSpans emailRE t.data).map (fun p => String.mk (sliceL t.data p.1 p.2)) ∧
      List.Chain' (fun p q : Nat × Nat => p.2 ≤ q.1 ∧ p.1 < q.1)
        (matchSpans emailRE t.data) ∧
      ∀ p ∈ matchSpans emailRE t.data,
        (ends t.data (bigFuel t.data) emailRE p.1).head? = some p.2) ∧
    (((extract_all t).lookup "urls").getD [] =
        (matchSpans urlRE t.data).map (fun p => String.mk (sliceL t.data p.1 p.2)) ∧
      List.Chain' (fun p q : Nat × Nat => p.2 ≤ q.1 ∧ p.1 < q.1)
        (matchSpans urlRE t.data) ∧
      ∀ p ∈ matchSpans urlRE t.data,
        (ends t.data (bigFuel t.data) urlRE p.1).head? = some p.2) :=
  ⟨⟨rfl, scan_chain _ _, fun p hp => (scan_first_match _ _ p hp).1⟩,
   ⟨rfl, scan_chain _ _, fun p hp => (scan_first_match _ _ p hp).1⟩⟩

/-- Witness for C3 at the concrete input `"a@b.co"`, whose single email match
is the span `(0, 6)`. -/
theorem raw_ordered_categories_witness :
    (ends ("a@b.co".data) (bigFuel "a@b.co".data) emailRE 0).head? = some 6 :=
  (raw_ordered_categories "a@b.co").1.2.2 (0, 6) (by decide)

/-- C4: for every input text, no element of `time_24h` is an `HH:MM` token
followed (optionally after one whitespace) by a case-insensitive `AM`/`PM`,
and no element of `time_12h` is a strict 24-hour `HH:MM` token without an
`AM`/`PM` suffix. -/
theorem time_mutual_exclusion (t : String) :
    (∀ m ∈ ((extract_all t).lookup "time_24h").getD [], isAmPmForm m = false) ∧
    (∀ m ∈ ((extract_all t).lookup "time_12h").getD [], isBare24h m = false) := by
  constructor
  · intro m hm
    rw [lookup_time_24h] at hm
    simp only [Option.getD_some] at hm
    rw [mem_unique_sorted, mem_findall] at hm
    obtain ⟨p, hp, rfl⟩ := hm
    obtain ⟨hhead, hle⟩ := scan_first_match _ _ p hp
    have hmem : p.2 ∈ ends t.data (bigFuel t.data) time24hRE p.1 :=
      List.mem_of_mem_head? (by rw [hhead]; rfl)
    have h5 := time24h_len hmem
    have hlen : p.2 ≤ t.data.length := ends_le_length _ _ hle _ hmem
    unfold isAmPmForm
    apply isAmPmFormL_eq_false
    show (sliceL t.data p.1 p.2).length < 7
    rw [@length_sliceL t.data p.1 p.2 (by omega) hlen]
    omega
  · intro m hm
    rw [lookup_time_12h] at hm
    simp only [Option.getD_some] at hm
    rw [mem_unique_sorted, mem_findall] at hm
    obtain ⟨p, hp, rfl⟩ := hm
    obtain ⟨hhead, hle⟩ := scan_first_match _ _ p hp
    have hmem : p.2 ∈ ends t.data (bigFuel t.data) time12hRE p.1 :=
      List.mem_of_mem_head? (by rw [hhead]; rfl)
    have h6 := time12h_len hmem
    have hlen : p.2 ≤ t.data.length := ends_le_length _ _ hle _ hmem
    unfold isBare24h
    apply isBare24hL_eq_false
    show (sliceL t.data p.1 p.2).length ≠ 5
    rw [@length_sliceL t.data p.1 p.2 (by omega) hlen]
    omega

/-- Witness for C4 at the concrete inputs `"14:30"` and `"3:45 pm"`. -/
theorem time_mutual_exclusion_witness :
    isAmPmForm "14:30" = false ∧ isBare24h "3:45 pm" = false :=
  ⟨(time_mutual_exclusion "14:30").1 "14:30" (by decide),
   (time_mutual_exclusion "3:45 pm").2 "3:45 pm" (by decide)⟩

/-- C5 (counterexample): on the 11-digit input `"12345678901"` the phone
matcher does return a match consisting of ten bare digits embedded inside a
longer digit run — the separator-less first alternative has no word
boundaries, so the claim's "in particular" clause fails. The match span is
`(0, 10)` inside an all-digit text of length 11, so the match is immediately
followed by a further digit. -/
theorem phone_embedded_ten_digit_run :
    (extract_all "12345678901").lookup "phone_numbers" = some ["1234567890"] ∧
    matchSpans phoneRE ("12345678901").data = [(0, 10)] ∧
    ("12345678901").data.all Char.isDigit = true ∧
    ("12345678901").data.length = 11 ∧
    ("1234567890").data.length = 10 ∧
    ("1234567890").data.all Char.isDigit = true := by
  exact ⟨by decide, by decide, by decide, by decide, by decide, by decide⟩

/-- C5 (amended): every string in `phone_numbers` is either a 3-3-4-digit
style number with optional parentheses around the first group and an optional
single separator between groups, or a run of exactly ten digits — but such a
ten-digit match need not be word-boundary-delimited: the separator-less form
can match ten digits embedded inside a longer digit run. -/
theorem phone_match_shapes (t m : String)
    (hm : m ∈ ((extract_all t).lookup "phone_numbers").getD []) :
    Phone334 m ∨ Bare10 m := by
  rw [lookup_phone_numbers] at hm
  simp only [Option.getD_some] at hm
  rw [mem_unique_sorted, mem_findall] at hm
  obtain ⟨p, hp, rfl⟩ := hm
  obtain ⟨hhead, -⟩ := scan_first_match _ _ p hp
  exact phone_match_shape (List.mem_of_mem_head? (by rw [hhead]; rfl))

/-- Witness for the amended C5 at the concrete input `"(555) 123-4567"`. -/
theorem phone_match_shapes_witness :
    Phone334 "(555) 123-4567" ∨ Bare10 "(555) 123-4567" :=
  phone_match_shapes "(555) 123-4567" "(555) 123-4567" (by decide)

/-- C6: on the input `"$1,234.56 $999"` the currency sequence contains both
amounts, ordered by length then lexicographically. -/
theorem currency_example_sorted :
    (extract_all "$1,234.56 $999").lookup "currency" =
      some ["$999", "$1,234.56"] ∧
    "$1,234.56" ∈ (((extract_all "$1,234.56 $999").lookup "currency").getD []) ∧
    "$999" ∈ (((extract_all "$1,234.56 $999").lookup "currency").getD []) := by
  exact ⟨by decide, by decide, by decide⟩

/-- C7: `extract_all` is total — it is a plain function on strings — and for
every input (the empty string and non-ASCII text included) every category key
is present; when a category's pattern has no matches its key still maps to
the empty sequence rather than being absent. -/
theorem extract_all_total (t : String) :
    (((extract_all t).lookup "emails").isSome = true ∧
     ((extract_all t).lookup "urls").isSome = true ∧
     ((extract_all t).lookup "phone_numbers").isSome = true ∧
     ((extract_all t).lookup "credit_cards").isSome = true ∧
     ((extract_all t).lookup "time_12h").isSome = true ∧
     ((extract_all t).lookup "time_24h").isSome = true ∧
     ((extract_all t).lookup "hashtags").isSome = true ∧
     ((extract_all t).lookup "currency").isSome = true) ∧
    ((findall emailRE t.data = [] → (extract_all t).lookup "emails" = some []) ∧
     (findall urlRE t.data = [] → (extract_all t).lookup "urls" = some []) ∧
     (findall phoneRE t.data = [] →
       (extract_all t).lookup "phone_numbers" = some []) ∧
     (findall creditCardRE t.data = [] →
       (extract_all t).lookup "credit_cards" = some []) ∧
     (findall time12hRE t.data = [] →
       (extract_all t).lookup "time_12h" = some []) ∧
     (findall time24hRE t.data = [] →
       (extract_all t).lookup "time_24h" = some []) ∧
     (findall hashtagRE t.data = [] →
       (extract_all t).lookup "hashtags" = some []) ∧
     (findall currencyRE t.data = [] →
       (extract_all t).lookup "currency" = some [])) := by
  refine ⟨⟨rfl, rfl, rfl, rfl, rfl, rfl, rfl, rfl⟩,
    ⟨?_, ?_, ?_, ?_, ?_, ?_, ?_, ?_⟩⟩
  · intro h; rw [lookup_emails, h]
  · intro h; rw [lookup_urls, h]
  · intro h; rw [lookup_phone_numbers, h]; rfl
  · intro h; rw [lookup_credit_cards, h]; rfl
  · intro h; rw [lookup_time_12h, h]; rfl
  · intro h; rw [lookup_time_24h, h]; rfl
  · intro h; rw [lookup_hashtags, h]; rfl
  · intro h; rw [lookup_currency, h]; rfl

/-- Witness for C7 at the empty string and at a non-ASCII input. -/
theorem extract_all_total_witness :
    (extract_all "").lookup "emails" = some [] ∧
    (extract_all "héllo ☃").lookup "urls" = some [] :=
  ⟨(extract_all_total "").2.1 (by decide),
   (extract_all_total "héllo ☃").2.2.1 (by decide)⟩

/-- C8: a `$` amount whose decimal part is not exactly two digits is
truncated, not rejected: on `"$12.345"` the currency category is exactly
`["$12"]`. -/
theorem currency_truncates_decimals :
    (extract_all "$12.345").lookup "currency" = some ["$12"] := by
  decide

/-- C9: the phone matcher accepts mismatched parentheses and keeps them in
the extracted string, for both a stray closing and a stray opening
parenthesis. -/
theorem phone_mismatched_parens :
    (extract_all "555) 123-4567").lookup "phone_numbers" =
      some ["555) 123-4567"] ∧
    (extract_all "(555 123-4567").lookup "phone_numbers" =
      some ["(555 123-4567"] := by
  exact ⟨by decide, by decide⟩

/-- C10: categories are matched independently, so the same characters can be
reported under two keys: `"https://user@host.com"` yields both the full URL
and the embedded email address. -/
theorem url_email_overlap :
    (extract_all "https://user@host.com").lookup "urls" =
      some ["https://user@host.com"] ∧
    (extract_all "https://user@host.com").lookup "emails" =
      some ["user@host.com"] := by
  exact ⟨by decide, by decide⟩
